/- Verification of the DistillerCore text-distillation pipeline
   (entity extraction, relationship inference, summarization).
   The C++ class DistillerCore is shallowly embedded: strings are lists of
   characters, std::map values are association lists in sorted key order,
   and the ECMAScript regex engine is a backtracking matcher with explicit
   fuel. -/
import Mathlib

set_option maxRecDepth 4000

/-- Source strings are modelled as lists of characters. -/
abbrev Str := List Char

namespace DistillerCore

/-! ## Summarizer (DistillerCore::summarize_text)

`std::istringstream >> token` splits on runs of whitespace characters
(the default-locale `isspace` set). -/

/-- The default-locale `isspace` characters used by `operator>>` on an
`istringstream`. -/
def isSpaceChar (c : Char) : Bool :=
  c = ' ' || c = '\t' || c = '\n' || c = '\x0b' || c = '\x0c' || c = '\r'

/-- Accumulating worker for whitespace tokenization: `cur` holds the
(reversed) characters of the token currently being read. -/
def tokAux : Str → Str → List Str
  | [], cur => if cur.isEmpty then [] else [cur.reverse]
  | c :: cs, cur =>
    if isSpaceChar c then
      if cur.isEmpty then tokAux cs [] else cur.reverse :: tokAux cs []
    else
      tokAux cs (c :: cur)

/-- The token list read by the `while (iss >> token)` loop. -/
def tokenize (s : Str) : List Str := tokAux s []

/-- Join tokens with single ASCII spaces, as built by the summary loop
(`if (i > 0) summary += " "; summary += tokens[i]`). -/
def joinSp : List Str → Str
  | [] => []
  | [t] => t
  | t :: ts => t ++ ' ' :: joinSp ts

/-- Embedding of `DistillerCore::summarize_text`: if the token count is at
most `max_length` the text is returned unchanged, otherwise the first
`max_length` tokens are re-joined with single spaces. -/
def summarize_text (text : Str) (max_length : Int) : Str :=
  let tokens := tokenize text
  if (tokens.length : Int) ≤ max_length then text
  else joinSp (tokens.take max_length.toNat)

/-! ## Sentence segmentation (the getline loop in extract_relationships)

`std::getline(iss, sentence, '.')` succeeds as long as at least one
character (possibly only the delimiter) is extracted; consequently an empty
input yields no sentences, and an empty trailing fragment after a final
period is not produced. -/

/-- One in-progress `getline`: `acc` holds the (reversed) characters read so
far of the current sentence. -/
def splitLoop : Str → Str → List Str
  | [], acc => [acc.reverse]
  | c :: cs, acc =>
    if c = '.' then
      if cs.isEmpty then [acc.reverse] else acc.reverse :: splitLoop cs []
    else
      splitLoop cs (c :: acc)

/-- The sentence list produced by the `while (std::getline(iss, sentence, '.'))`
loop. -/
def splitSentences (t : Str) : List Str :=
  if t.isEmpty then [] else splitLoop t []

/-- Reference splitter following the spec's "splits text on the literal
period character": the full list of period-separated fragments, empty
fragments included, one more fragment than periods. -/
def splitSpec : Str → List Str
  | [] => [[]]
  | c :: cs =>
    if c = '.' then [] :: splitSpec cs
    else
      match splitSpec cs with
      | [] => [[c]]
      | f :: rest => (c :: f) :: rest

/-- Prepend characters to the first fragment of a fragment list. -/
def consHead (a : Str) : List Str → List Str
  | [] => [a]
  | f :: rest => (a ++ f) :: rest

/-- Drop a final empty fragment, keeping all other fragments. -/
def dropFinalEmpty (l : List Str) : List Str :=
  if l.getLast? = some ([] : Str) then l.dropLast else l

/-! ## Relationship inference (DistillerCore::extract_relationships)

The entity mapping argument (a `std::map<std::string, std::vector<std::string>>`)
is modelled as an association list of (category, entity list) pairs; the
claims quantify over arbitrary mappings, and none of the proved properties
depend on the iteration order of the outer map. -/

/-- A relationship triple (subject, predicate, object), as produced by
`std::make_tuple(entity1, rel_type, entity2)`. -/
abbrev Triple := Str × Str × Str

/-- The literal character content of `"RELATED_TO_"`. -/
def relTag : Str := String.toList "RELATED_TO_"

/-- The predicate string `"RELATED_TO_" + entity_type2`. -/
def relatedTo (cat : Str) : Str := relTag ++ cat

/-- The triples the nested entity loops emit for one sentence: for every
category/entity pair whose entity occurs in the sentence, and every other
pair with a different entity string also occurring in the sentence, a triple
is pushed. -/
def relsForSentence (sentence : Str) (entities : List (Str × List Str)) :
    List Triple :=
  entities.flatMap fun p1 =>
    p1.2.flatMap fun entity1 =>
      if entity1 <:+: sentence then
        entities.flatMap fun p2 =>
          p2.2.flatMap fun entity2 =>
            if entity2 ≠ entity1 ∧ entity2 <:+: sentence then
              [(entity1, relatedTo p2.1, entity2)]
            else []
      else []

/-- The lexicographic key of a triple: `std::tuple` comparison is
lexicographic on the three `std::string` components, each compared
lexicographically by character. -/
def tKey (t : Triple) : Str ×ₗ (Str ×ₗ Str) := toLex (t.1, toLex (t.2.1, t.2.2))

/-- The strict `std::tuple` comparison used by `std::sort`. -/
def tripleLt (a b : Triple) : Prop := tKey a < tKey b

/-- The reflexive closure of `tripleLt`; `insertionSort` sorts with respect
to this relation. -/
def tripleLe (a b : Triple) : Prop := tKey a ≤ tKey b

instance : DecidableRel tripleLe := fun a b =>
  inferInstanceAs (Decidable (tKey a ≤ tKey b))

instance : DecidableRel tripleLt := fun a b =>
  inferInstanceAs (Decidable (tKey a < tKey b))

instance : IsTotal Triple tripleLe := ⟨fun a b => le_total (tKey a) (tKey b)⟩

instance : IsTrans Triple tripleLe := ⟨fun _ _ _ h1 h2 => le_trans h1 h2⟩

instance : IsTrans Triple tripleLt := ⟨fun _ _ _ h1 h2 => lt_trans h1 h2⟩

/-- `std::unique` on the sorted vector: drop each element equal to its
immediate predecessor. -/
def dedupAdj : List Triple → List Triple
  | [] => []
  | [x] => [x]
  | x :: y :: ys => if x = y then dedupAdj (y :: ys) else x :: dedupAdj (y :: ys)

/-- Embedding of `DistillerCore::extract_relationships`: collect the
co-occurrence triples over all sentences, sort them, and remove adjacent
duplicates. -/
def extract_relationships (text : Str) (entities : List (Str × List Str)) :
    List Triple :=
  dedupAdj (List.insertionSort tripleLe
    ((splitSentences text).flatMap fun s => relsForSentence s entities))

/-! ## Regex engine (std::regex, ECMAScript grammar)

A backtracking matcher in continuation-passing style, with explicit fuel so
that every recursion is structural and kernel-reducible.  Greedy
quantifiers try the longer continuation first; alternation is ordered; a
star iteration that consumes no characters fails (the ECMAScript
repetition rule), which none of the catalog patterns can hit anyway. -/

/-- ECMAScript word characters (`\w`), as used by the `\b` assertion. -/
def isWordChar (c : Char) : Bool := c.isAlpha || c.isDigit || c = '_'

/-- Whether the character at index `i` (if any) is a word character. -/
def isWordAt (text : Str) (i : Nat) : Bool :=
  match text[i]? with
  | some c => isWordChar c
  | none => false

/-- The `\b` assertion: a word/non-word transition at position `i`. -/
def wordBoundary (text : Str) (i : Nat) : Bool :=
  (decide (0 < i) && isWordAt text (i - 1)) != isWordAt text i

/-- Abstract syntax of the regex fragment the six catalog patterns use:
character classes, concatenation, ordered alternation, greedy star, and
the word-boundary assertion. -/
inductive RE : Type where
  | eps : RE
  | cls : (Char → Bool) → RE
  | seq : RE → RE → RE
  | alt : RE → RE → RE
  | star : RE → RE
  | wb : RE

/-- Backtracking matcher: `mtch text fuel re i k` tries to match `re` at
position `i` and calls the continuation `k` with each candidate end
position, most-preferred first, returning the first success. -/
def mtch (text : Str) : Nat → RE → Nat → (Nat → Option Nat) → Option Nat
  | 0, _, _, _ => none
  | fuel + 1, re, i, k =>
    match re with
    | .eps => k i
    | .wb => if wordBoundary text i then k i else none
    | .cls p =>
      match text[i]? with
      | some c => if p c then k (i + 1) else none
      | none => none
    | .seq a b => mtch text fuel a i fun j => mtch text fuel b j k
    | .alt a b =>
      match mtch text fuel a i k with
      | some r => some r
      | none => mtch text fuel b i k
    | .star a =>
      match mtch text fuel a i
          (fun j => if j = i then none else mtch text fuel (.star a) j k) with
      | some r => some r
      | none => k i

/-- A fuel budget largely exceeding the deepest possible call chain for the
catalog patterns on the given text. -/
def engineFuel (text : Str) : Nat := 256 * (text.length + 16)

/-- `std::regex_search` semantics: try a match at `i`, then at `i + 1`, and
so on up to the end of the text; report the first position that matches,
with its end position.  `steps` is structural fuel. -/
def findFrom (text : Str) (re : RE) : Nat → Nat → Option (Nat × Nat)
  | _, 0 => none
  | i, steps + 1 =>
    match mtch text (engineFuel text) re i some with
    | some j => some (i, j)
    | none => if i < text.length then findFrom text re (i + 1) steps else none

/-- The characters of `text` from index `s` (inclusive) to `e` (exclusive). -/
def subStr (text : Str) (s e : Nat) : Str := (text.drop s).take (e - s)

/-- The successive matches enumerated by `std::sregex_iterator`: search from
the current position, record the matched string, and continue after the
match (one past it when the match is empty). -/
def allMatchesFrom (text : Str) (re : RE) : Nat → Nat → List Str
  | _, 0 => []
  | i, steps + 1 =>
    match findFrom text re i (text.length + 2) with
    | none => []
    | some (s, e) =>
      subStr text s e :: allMatchesFrom text re (if e = s then e + 1 else e) steps

/-- All left-to-right non-overlapping matches of `re` in `text`. -/
def allMatches (text : Str) (re : RE) : List Str :=
  allMatchesFrom text re 0 (text.length + 1)

/-! ### The six catalog patterns (DistillerCore::initialize_patterns) -/

/-- A literal character. -/
def rChar (c : Char) : RE := .cls fun x => x = c

/-- A literal character sequence. -/
def rStr (s : String) : RE := s.toList.foldr (fun c r => .seq (rChar c) r) .eps

/-- Greedy `+`: one occurrence followed by a greedy star. -/
def rPlus (a : RE) : RE := .seq a (.star a)

/-- Greedy `?`: prefer the occurrence, fall back to the empty match. -/
def rOpt (a : RE) : RE := .alt a .eps

/-- Concatenation of a list of regexes. -/
def seqs (l : List RE) : RE := l.foldr .seq .eps

/-- `[A-Z]`. -/
def upperC : RE := .cls Char.isUpper

/-- `[a-z]`. -/
def lowerC : RE := .cls Char.isLower

/-- `\d`. -/
def digitC : RE := .cls Char.isDigit

/-- A literal ASCII space. -/
def spC : RE := rChar ' '

/-- `\b[A-Z][a-z]+ [A-Z][a-z]+\b` (the "person" rule). -/
def personPat : RE :=
  seqs [.wb, upperC, rPlus lowerC, spC, upperC, rPlus lowerC, .wb]

/-- `\b[A-Z][A-Z]+\b|\b[A-Z][a-z]+ [A-Z][a-z]+\b` (the "organization" rule). -/
def organizationPat : RE :=
  .alt (seqs [.wb, upperC, rPlus upperC, .wb])
    (seqs [.wb, upperC, rPlus lowerC, spC, upperC, rPlus lowerC, .wb])

/-- The street-type alternation `(?:St|Ave|Rd|Blvd|Dr|Ln|Ct|Pl)`. -/
def streetTypePat : RE :=
  .alt (rStr "St") (.alt (rStr "Ave") (.alt (rStr "Rd") (.alt (rStr "Blvd")
    (.alt (rStr "Dr") (.alt (rStr "Ln") (.alt (rStr "Ct") (rStr "Pl")))))))

/-- The "location" rule:
`\b[A-Z][a-z]+(?: [A-Z][a-z]+)*, [A-Z]{2}\b|\b[A-Z][a-z]+(?: [A-Z][a-z]*)* (?:St|Ave|Rd|Blvd|Dr|Ln|Ct|Pl)\b`. -/
def locationPat : RE :=
  .alt
    (seqs [.wb, upperC, rPlus lowerC, .star (seqs [spC, upperC, rPlus lowerC]),
      rChar ',', spC, upperC, upperC, .wb])
    (seqs [.wb, upperC, rPlus lowerC, .star (seqs [spC, upperC, .star lowerC]),
      spC, streetTypePat, .wb])

/-- The month-name alternation `(?:Jan|Feb|Mar|Apr|May|Jun|Jul|Aug|Sep|Oct|Nov|Dec)`. -/
def monthPat : RE :=
  .alt (rStr "Jan") (.alt (rStr "Feb") (.alt (rStr "Mar") (.alt (rStr "Apr")
    (.alt (rStr "May") (.alt (rStr "Jun") (.alt (rStr "Jul") (.alt (rStr "Aug")
      (.alt (rStr "Sep") (.alt (rStr "Oct") (.alt (rStr "Nov") (rStr "Dec")))))))))))

/-- The "date" rule:
`\b(?:Jan|...|Dec) \d{1,2},? \d{4}\b|\b\d{1,2}/\d{1,2}/\d{4}\b`. -/
def datePat : RE :=
  .alt
    (seqs [.wb, monthPat, spC, digitC, rOpt digitC, rOpt (rChar ','), spC,
      digitC, digitC, digitC, digitC, .wb])
    (seqs [.wb, digitC, rOpt digitC, rChar '/', digitC, rOpt digitC, rChar '/',
      digitC, digitC, digitC, digitC, .wb])

/-- The local-part class `[A-Za-z0-9._%+-]` of the "email" rule. -/
def emailLocalC : RE :=
  .cls fun c => c.isAlpha || c.isDigit || c = '.' || c = '_' || c = '%' ||
    c = '+' || c = '-'

/-- The domain class `[A-Za-z0-9.-]` of the "email" rule. -/
def emailDomC : RE := .cls fun c => c.isAlpha || c.isDigit || c = '.' || c = '-'

/-- The top-level-label class `[A-Z|a-z]` of the "email" rule (the literal
class in the source includes the pipe character). -/
def emailTldC : RE := .cls fun c => c.isUpper || c = '|' || c.isLower

/-- The "email" rule: `\b[A-Za-z0-9._%+-]+@[A-Za-z0-9.-]+\.[A-Z|a-z]{2,}\b`. -/
def emailPat : RE :=
  seqs [.wb, rPlus emailLocalC, rChar '@', rPlus emailDomC, rChar '.',
    emailTldC, emailTldC, .star emailTldC, .wb]

/-- The body class `[^\s<>"]` of the "url" rule. -/
def urlBodyC : RE :=
  .cls fun c => !(isSpaceChar c || c = '<' || c = '>' || c = '"')

/-- The "url" rule: `https?://[^\s<>"]+|www\.[^\s<>"]+`. -/
def urlPat : RE :=
  .alt (seqs [rStr "http", rOpt (rChar 's'), rStr "://", rPlus urlBodyC])
    (seqs [rStr "www.", rPlus urlBodyC])

/-! ## Entity extraction (DistillerCore::extract_entities) -/

/-- The pattern catalog `entity_patterns_`, in the iteration order of
`std::map<std::string, std::regex>` (sorted by key). -/
def entity_patterns_ : List (Str × RE) :=
  [(String.toList "date", datePat),
   (String.toList "email", emailPat),
   (String.toList "location", locationPat),
   (String.toList "organization", organizationPat),
   (String.toList "person", personPat),
   (String.toList "url", urlPat)]

/-- The collection loop over the match iterator: append each match unless it
is already present (`std::find` over the list built so far). -/
def collectUnique : List Str → List Str → List Str
  | found, [] => found
  | found, m :: ms =>
    if m ∈ found then collectUnique found ms
    else collectUnique (found ++ [m]) ms

/-- Embedding of `DistillerCore::extract_entities`: for every catalog
category, the duplicate-suppressed list of its matches. -/
def extract_entities (text : Str) : List (Str × List Str) :=
  entity_patterns_.map fun p => (p.1, collectUnique [] (allMatches text p.2))

/-! ## Spec-side description of per-category match lists

For the refinement claim about entity lists: "first-seen order of the
category's left-to-right non-overlapping matches, exact-string duplicates
suppressed", written directly from the spec's words. -/

/-- Fuel-driven worker: keep the head, then recurse on the tail purged of
further occurrences of the head. -/
def firstSeenAux : Nat → List Str → List Str
  | 0, _ => []
  | _, [] => []
  | fuel + 1, m :: ms => m :: firstSeenAux fuel (ms.filter fun x => decide (x ≠ m))

/-- Modelled from the spec: the subsequence keeping the first occurrence of
every distinct string, in first-seen order. -/
def firstSeenSpec (ms : List Str) : List Str := firstSeenAux ms.length ms

/-! ## Lemmas about tokenization -/

/-- Every token produced by `tokAux` is nonempty and whitespace-free,
provided the partial token accumulator is whitespace-free. -/
lemma tokAux_wf (s : Str) : ∀ cur : Str, (∀ c ∈ cur, isSpaceChar c = false) →
    ∀ t ∈ tokAux s cur, t ≠ [] ∧ ∀ c ∈ t, isSpaceChar c = false := by
  induction s with
  | nil =>
    intro cur hcur t ht
    simp only [tokAux] at ht
    split at ht
    · simp at ht
    · next hne =>
      simp only [List.mem_singleton] at ht
      subst ht
      refine ⟨?_, fun c hc => hcur c (List.mem_reverse.mp hc)⟩
      simp only [ne_eq, List.reverse_eq_nil_iff]
      intro hnil
      rw [hnil] at hne
      simp at hne
  | cons c cs ih =>
    intro cur hcur t ht
    simp only [tokAux] at ht
    by_cases hsp : isSpaceChar c
    · rw [if_pos hsp] at ht
      split at ht
      · exact ih [] (by simp) t ht
      · next hne =>
        rcases List.mem_cons.mp ht with h | h
        · subst h
          refine ⟨?_, fun x hx => hcur x (List.mem_reverse.mp hx)⟩
          simp only [ne_eq, List.reverse_eq_nil_iff]
          intro hnil
          rw [hnil] at hne
          simp at hne
        · exact ih [] (by simp) t h
    · rw [if_neg hsp] at ht
      refine ih (c :: cur) ?_ t ht
      intro x hx
      rcases List.mem_cons.mp hx with h | h
      · subst h
        exact Bool.eq_false_iff.mpr hsp
      · exact hcur x h

/-- Reading a whitespace-free chunk just shifts it into the accumulator. -/
lemma tokAux_append (t : Str) : ∀ (s cur : Str),
    (∀ c ∈ t, isSpaceChar c = false) →
    tokAux (t ++ s) cur = tokAux s (t.reverse ++ cur) := by
  induction t with
  | nil => intro s cur _; simp
  | cons c t' ih =>
    intro s cur ht
    have hc : isSpaceChar c = false := ht c (List.mem_cons_self c t')
    simp only [List.cons_append, tokAux, hc, Bool.false_eq_true, if_false,
      List.reverse_cons, List.append_assoc, List.singleton_append]
    exact ih s (c :: cur) fun x hx => ht x (List.mem_cons_of_mem c hx)

/-- Tokenizing a single-space join of nonempty whitespace-free tokens
recovers exactly those tokens. -/
lemma tokenize_joinSp : ∀ ts : List Str,
    (∀ t ∈ ts, t ≠ [] ∧ ∀ c ∈ t, isSpaceChar c = false) →
    tokenize (joinSp ts) = ts := by
  intro ts
  induction ts with
  | nil => intro _; rfl
  | cons t ts ih =>
    intro hts
    obtain ⟨htne, htc⟩ := hts t (List.mem_cons_self t ts)
    match ts with
    | [] =>
      show tokAux (joinSp [t]) [] = [t]
      have : joinSp [t] = t ++ [] := by simp [joinSp]
      rw [this, tokAux_append t [] [] htc]
      simp only [tokAux, List.append_nil, List.isEmpty_eq_true,
        List.reverse_eq_nil_iff]
      rw [if_neg htne]
      simp
    | t' :: ts' =>
      show tokAux (joinSp (t :: t' :: ts')) [] = t :: t' :: ts'
      have hj : joinSp (t :: t' :: ts') = t ++ ' ' :: joinSp (t' :: ts') := rfl
      rw [hj, tokAux_append t (' ' :: joinSp (t' :: ts')) [] htc]
      have hsp : isSpaceChar ' ' = true := rfl
      simp only [tokAux, hsp, if_true, List.append_nil, List.isEmpty_eq_true,
        List.reverse_eq_nil_iff]
      rw [if_neg htne]
      rw [List.reverse_reverse]
      exact congrArg (t :: ·) (ih fun x hx => hts x (List.mem_cons_of_mem t hx))

/-- A nonempty accumulator guarantees at least one token. -/
lemma tokAux_ne_nil (s : Str) : ∀ cur : Str, cur ≠ [] → tokAux s cur ≠ [] := by
  induction s with
  | nil =>
    intro cur hcur
    simp only [tokAux, List.isEmpty_eq_true]
    rw [if_neg hcur]
    simp
  | cons c cs ih =>
    intro cur hcur
    simp only [tokAux, List.isEmpty_eq_true]
    by_cases hsp : isSpaceChar c
    · rw [if_pos hsp, if_neg hcur]
      simp
    · rw [if_neg hsp]
      exact ih (c :: cur) (by simp)

/-- The token list is empty exactly when every character is whitespace. -/
lemma tokenize_eq_nil_iff (s : Str) :
    tokenize s = [] ↔ ∀ c ∈ s, isSpaceChar c = true := by
  show tokAux s [] = [] ↔ _
  induction s with
  | nil => simp [tokAux]
  | cons c cs ih =>
    simp only [tokAux, List.isEmpty_nil, if_true]
    by_cases hsp : isSpaceChar c
    · rw [if_pos hsp]
      constructor
      · intro h x hx
        rcases List.mem_cons.mp hx with h' | h'
        · rw [h']; exact hsp
        · exact (ih.mp h) x h'
      · intro h
        exact ih.mpr fun x hx => h x (List.mem_cons_of_mem c hx)
    · rw [if_neg hsp]
      constructor
      · intro h
        exact absurd h (tokAux_ne_nil cs [c] (by simp))
      · intro h
        exact absurd (h c (List.mem_cons_self c cs)) hsp

/-- Core case analysis of `summarize_text` at non-positive bounds. -/
lemma summarize_nonpos_aux (text : Str) (mt : Int) (h : mt ≤ 0) :
    summarize_text text mt = if mt = 0 ∧ tokenize text = [] then text else [] := by
  by_cases h0 : tokenize text = []
  · by_cases hz : mt = 0
    · subst hz
      simp [summarize_text, h0]
    · have hlt : mt < 0 := lt_of_le_of_ne h hz
      rw [if_neg (fun hc => hz hc.1)]
      simp only [summarize_text, h0, List.length_nil, Nat.cast_zero, List.take_nil]
      rw [if_neg (show ¬ (0 : Int) ≤ mt by omega)]
      rfl
  · have hlen : 1 ≤ (tokenize text).length :=
      Nat.one_le_iff_ne_zero.mpr (by simpa [List.length_eq_zero] using h0)
    have hcond : ¬ (((tokenize text).length : Int) ≤ mt) := by omega
    have htn : mt.toNat = 0 := by omega
    simp only [summarize_text, hcond, if_false, htn, List.take_zero]
    rw [if_neg (fun hc => h0 hc.2)]
    rfl

/-- C1 (corrected): a strictly negative bound always yields the empty
summary, and a zero bound yields the empty summary unless the text has no
token at all, in which case the text itself is returned unchanged. -/
theorem summarize_nonpos (text : Str) (mt : Int) (h : mt ≤ 0) :
    summarize_text text mt = if mt = 0 ∧ tokenize text = [] then text else [] :=
  summarize_nonpos_aux text mt h

/-- C1 counterexample: at the whitespace-only text `" "` with bound `0` the
summary is the original text, not the empty string. -/
theorem summarize_nonpos_counterexample : ¬ (summarize_text [' '] 0 = []) := by
  decide

/-- C1 witness: the corrected statement applied at text `" "` and bound 0. -/
theorem summarize_nonpos_witness :
    summarize_text [' '] 0 =
      if (0 : Int) = 0 ∧ tokenize [' '] = [] then [' '] else [] :=
  summarize_nonpos [' '] 0 (by decide)

/-- C2 (confirmed): for a bound of at least one, a text with at most that
many whitespace tokens is returned byte-for-byte, and a longer text is
truncated to exactly its first `mt` tokens joined by single spaces, whose
token count does not exceed the bound. -/
theorem summarize_bound_identity (T : Str) (mt : Int) (h : 1 ≤ mt) :
    (((tokenize T).length : Int) ≤ mt → summarize_text T mt = T) ∧
    (mt < ((tokenize T).length : Int) →
      summarize_text T mt = joinSp ((tokenize T).take mt.toNat) ∧
      ((tokenize (summarize_text T mt)).length : Int) ≤ mt) := by
  constructor
  · intro hle
    simp [summarize_text, hle]
  · intro hlt
    have hcond : ¬ (((tokenize T).length : Int) ≤ mt) := not_le.mpr hlt
    have heq : summarize_text T mt = joinSp ((tokenize T).take mt.toNat) := by
      simp [summarize_text, hcond]
    refine ⟨heq, ?_⟩
    rw [heq, tokenize_joinSp ((tokenize T).take mt.toNat)
      (fun t ht => tokAux_wf T [] (by simp) t (List.mem_of_mem_take ht))]
    have : ((tokenize T).take mt.toNat).length = min mt.toNat (tokenize T).length :=
      List.length_take _ _
    omega

/-- C2 witness: the spec's own example, `summarize("one two three four five", 3)`
returns `"one two three"`. -/
theorem summarize_bound_identity_witness :
    (1 : Int) ≤ 3 ∧
    summarize_text (String.toList "one two three four five") 3 =
      String.toList "one two three" := by
  refine ⟨by decide, ?_⟩
  have h := ((summarize_bound_identity (String.toList "one two three four five")
    3 (by decide)).2 (by decide)).1
  rw [h]
  decide

/-- C10 (confirmed): a strictly negative bound yields the empty summary for
every input; a zero bound returns the input verbatim when it consists only
of whitespace, and the empty summary otherwise. -/
theorem summarize_zero_neg (text : Str) (mt : Int) :
    (mt < 0 → summarize_text text mt = []) ∧
    (mt = 0 →
      ((∀ c ∈ text, isSpaceChar c = true) → summarize_text text mt = text) ∧
      ((∃ c ∈ text, isSpaceChar c = false) → summarize_text text mt = [])) := by
  constructor
  · intro hlt
    rw [summarize_nonpos_aux text mt (le_of_lt hlt)]
    rw [if_neg (by intro hc; omega)]
  · intro hz
    subst hz
    constructor
    · intro hall
      rw [summarize_nonpos_aux text 0 le_rfl]
      rw [if_pos ⟨rfl, (tokenize_eq_nil_iff text).mpr hall⟩]
    · intro ⟨c, hc, hcf⟩
      rw [summarize_nonpos_aux text 0 le_rfl]
      rw [if_neg]
      intro ⟨_, hnil⟩
      rw [(tokenize_eq_nil_iff text).mp hnil c hc] at hcf
      simp at hcf

/-- C10 witness: the negative-bound case at `"a"` with bound `-1`, and both
zero-bound cases at `" "` and `"a"`. -/
theorem summarize_zero_neg_witness :
    summarize_text ['a'] (-1) = [] ∧
    summarize_text [' '] 0 = [' '] ∧ summarize_text ['a'] 0 = [] := by
  refine ⟨(summarize_zero_neg ['a'] (-1)).1 (by decide),
    ((summarize_zero_neg [' '] 0).2 rfl).1 (by decide),
    ((summarize_zero_neg ['a'] 0).2 rfl).2 ⟨'a', by decide⟩⟩

/-! ## Lemmas about sentence segmentation -/

/-- A dot-free input is read as one final sentence behind the accumulator. -/
lemma splitLoop_no_dot (cs : Str) : ∀ acc : Str, '.' ∉ cs →
    splitLoop cs acc = [acc.reverse ++ cs] := by
  induction cs with
  | nil => intro acc _; simp [splitLoop]
  | cons c cs ih =>
    intro acc hdot
    have hc : ¬ c = '.' := fun h => hdot (h ▸ List.mem_cons_self c cs)
    simp only [splitLoop, if_neg hc]
    rw [ih (c :: acc) fun h => hdot (List.mem_cons_of_mem c h)]
    simp

/-- Every sentence the getline loop produces is dot-free and occurs
contiguously in the reversed accumulator followed by the remaining input. -/
lemma splitLoop_mem (cs : Str) : ∀ acc S : Str, '.' ∉ acc →
    S ∈ splitLoop cs acc → '.' ∉ S ∧ S <:+: (acc.reverse ++ cs) := by
  induction cs with
  | nil =>
    intro acc S hacc hS
    simp only [splitLoop, List.mem_singleton] at hS
    subst hS
    exact ⟨fun h => hacc (List.mem_reverse.mp h), ⟨[], [], by simp⟩⟩
  | cons c cs ih =>
    intro acc S hacc hS
    simp only [splitLoop] at hS
    by_cases hc : c = '.'
    · rw [if_pos hc] at hS
      subst hc
      split at hS
      · simp only [List.mem_singleton] at hS
        subst hS
        exact ⟨fun h => hacc (List.mem_reverse.mp h), ⟨[], '.' :: cs, by simp⟩⟩
      · rcases List.mem_cons.mp hS with h | h
        · subst h
          exact ⟨fun h => hacc (List.mem_reverse.mp h), ⟨[], '.' :: cs, by simp⟩⟩
        · have hrec := ih [] S (by simp) h
          refine ⟨hrec.1, hrec.2.trans ?_⟩
          exact ⟨acc.reverse ++ ['.'], [], by simp⟩
    · rw [if_neg hc] at hS
      have hacc' : '.' ∉ c :: acc := by
        intro h
        rcases List.mem_cons.mp h with h' | h'
        · exact hc h'.symm
        · exact hacc h'
      have hrec := ih (c :: acc) S hacc' hS
      refine ⟨hrec.1, ?_⟩
      have := hrec.2
      simpa [List.reverse_cons, List.append_assoc] using this

/-- Every sentence of a text is dot-free and a contiguous substring of it. -/
lemma splitSentences_mem (t S : Str) (hS : S ∈ splitSentences t) :
    '.' ∉ S ∧ S <:+: t := by
  unfold splitSentences at hS
  split at hS
  · simp at hS
  · simpa using splitLoop_mem t [] S (by simp) hS

/-- One getline step at a period followed by more input. -/
lemma splitLoop_dot_cons (cs acc : Str) (h : cs ≠ []) :
    splitLoop ('.' :: cs) acc = acc.reverse :: splitLoop cs [] := by
  have hemp : cs.isEmpty = false := by
    cases cs with
    | nil => exact absurd rfl h
    | cons a as => rfl
  simp [splitLoop, hemp]

/-- One getline step at a final period. -/
lemma splitLoop_dot_nil (acc : Str) : splitLoop ['.'] acc = [acc.reverse] := by
  simp [splitLoop]

/-- Appending a dot and one more dot-free nonempty fragment appends exactly
one sentence. -/
lemma splitLoop_append_dot (cs : Str) : ∀ acc s : Str, '.' ∉ s → s ≠ [] →
    splitLoop (cs ++ '.' :: s) acc = splitLoop (cs ++ ['.']) acc ++ [s] := by
  induction cs with
  | nil =>
    intro acc s hdot hne
    rw [List.nil_append, List.nil_append, splitLoop_dot_cons s acc hne,
      splitLoop_no_dot s [] hdot, splitLoop_dot_nil acc]
    simp
  | cons c cs ih =>
    intro acc s hdot hne
    by_cases hc : c = '.'
    · subst hc
      rw [List.cons_append, List.cons_append,
        splitLoop_dot_cons (cs ++ '.' :: s) acc (by simp),
        splitLoop_dot_cons (cs ++ ['.']) acc (by simp),
        ih [] s hdot hne]
      simp
    · simp only [List.cons_append, splitLoop, if_neg hc]
      exact ih (c :: acc) s hdot hne

/-- The reference splitter always yields at least one fragment. -/
lemma splitSpec_ne_nil (t : Str) : splitSpec t ≠ [] := by
  cases t with
  | nil => simp [splitSpec]
  | cons c cs =>
    by_cases hc : c = '.'
    · simp [splitSpec, hc]
    · cases h : splitSpec cs with
      | nil => simp [splitSpec, hc, h]
      | cons f rest => simp [splitSpec, hc, h]

/-- Prepending nothing to a nonempty fragment list does nothing. -/
lemma consHead_nil (l : List Str) (h : l ≠ []) : consHead [] l = l := by
  cases l with
  | nil => exact absurd rfl h
  | cons f rest => simp [consHead]

/-- Dropping a final empty fragment commutes with a cons in front of at
least one more fragment. -/
lemma dropFinalEmpty_cons (x y : Str) (ys : List Str) :
    dropFinalEmpty (x :: y :: ys) = x :: dropFinalEmpty (y :: ys) := by
  unfold dropFinalEmpty
  rw [List.getLast?_cons_cons]
  split
  · rfl
  · rfl

/-- The reference split step at a period. -/
lemma splitSpec_dot (cs : Str) : splitSpec ('.' :: cs) = [] :: splitSpec cs := by
  simp [splitSpec]

/-- The reference split step at a non-period character. -/
lemma splitSpec_cons_ne (c : Char) (cs : Str) (hc : ¬ c = '.') (f : Str)
    (rest : List Str) (hfr : splitSpec cs = f :: rest) :
    splitSpec (c :: cs) = (c :: f) :: rest := by
  simp [splitSpec, hc, hfr]

/-- Appending a final period appends exactly one empty fragment to the
reference split. -/
lemma splitSpec_append_dot (t : Str) :
    splitSpec (t ++ ['.']) = splitSpec t ++ [[]] := by
  induction t with
  | nil => rfl
  | cons c cs ih =>
    by_cases hc : c = '.'
    · subst hc
      rw [List.cons_append, splitSpec_dot, splitSpec_dot, ih, List.cons_append]
    · obtain ⟨f, rest, hfr⟩ : ∃ f rest, splitSpec cs = f :: rest := by
        cases h : splitSpec cs with
        | nil => exact absurd h (splitSpec_ne_nil cs)
        | cons f rest => exact ⟨f, rest, rfl⟩
      have hfr' : splitSpec (cs ++ ['.']) = f :: (rest ++ [[]]) := by
        rw [ih, hfr, List.cons_append]
      rw [List.cons_append, splitSpec_cons_ne c (cs ++ ['.']) hc f (rest ++ [[]]) hfr',
        splitSpec_cons_ne c cs hc f rest hfr, List.cons_append]

/-- The getline loop computes the reference split with the accumulator
prepended to the first fragment and a final empty fragment dropped. -/
lemma splitLoop_eq_spec (cs : Str) : ∀ acc : Str, cs ≠ [] ∨ acc ≠ [] →
    splitLoop cs acc = dropFinalEmpty (consHead acc.reverse (splitSpec cs)) := by
  induction cs with
  | nil =>
    intro acc h
    have hacc : acc ≠ [] := by
      rcases h with h | h
      · exact absurd rfl h
      · exact h
    simp only [splitLoop, splitSpec, consHead, List.append_nil]
    unfold dropFinalEmpty
    rw [if_neg]
    simp only [List.getLast?_singleton, Option.some.injEq]
    intro h'
    exact hacc (by simpa using h')
  | cons c cs' ih =>
    intro acc h
    by_cases hc : c = '.'
    · subst hc
      cases cs' with
      | nil =>
        simp only [splitLoop, List.isEmpty_nil, if_pos rfl, if_true,
          splitSpec, consHead, List.append_nil]
        unfold dropFinalEmpty
        rw [if_pos (by rfl)]
        rfl
      | cons d ds =>
        rw [splitLoop_dot_cons (d :: ds) acc (by simp),
          ih [] (Or.inl (by simp)), List.reverse_nil,
          consHead_nil _ (splitSpec_ne_nil _)]
        obtain ⟨f, rest, hfr⟩ : ∃ f rest, splitSpec (d :: ds) = f :: rest := by
          cases hx : splitSpec (d :: ds) with
          | nil => exact absurd hx (splitSpec_ne_nil _)
          | cons f rest => exact ⟨f, rest, rfl⟩
        rw [splitSpec_dot, hfr]
        show acc.reverse :: dropFinalEmpty (f :: rest) =
          dropFinalEmpty (consHead acc.reverse ([] :: f :: rest))
        simp only [consHead, List.append_nil]
        rw [dropFinalEmpty_cons]
    · have hstep : splitLoop (c :: cs') acc = splitLoop cs' (c :: acc) := by
        simp [splitLoop, hc]
      rw [hstep, ih (c :: acc) (Or.inr (by simp))]
      obtain ⟨f, rest, hfr⟩ : ∃ f rest, splitSpec cs' = f :: rest := by
        cases hx : splitSpec cs' with
        | nil => exact absurd hx (splitSpec_ne_nil _)
        | cons f rest => exact ⟨f, rest, rfl⟩
      have hsp : splitSpec (c :: cs') = (c :: f) :: rest := by
        simp [splitSpec, hc, hfr]
      rw [hsp, hfr, List.reverse_cons]
      simp only [consHead, List.append_assoc, List.singleton_append]

/-- The sentence list is the reference split with a final empty fragment
removed. -/
lemma splitSentences_eq_spec (t : Str) :
    splitSentences t = dropFinalEmpty (splitSpec t) := by
  cases t with
  | nil => rfl
  | cons c cs =>
    have h1 : ¬ ((c :: cs).isEmpty = true) := by simp
    unfold splitSentences
    rw [if_neg h1, splitLoop_eq_spec (c :: cs) [] (Or.inl (by simp)),
      List.reverse_nil, consHead_nil _ (splitSpec_ne_nil _)]

/-- C8 (corrected): segmentation splits on the literal period and keeps
every period-separated fragment as a sentence except a final empty one: the
sentence list is exactly the fragment list with a trailing empty fragment
removed.  In particular a nonempty text with no period is one whole
sentence, a nonempty trailing fragment after the last period is kept,
appending a final period contributes no sentence (its empty trailing
fragment is not included), and the empty text yields no sentences. -/
theorem splitSentences_trailing :
    splitSentences ([] : Str) = [] ∧
    (∀ t : Str, t ≠ [] → '.' ∉ t → splitSentences t = [t]) ∧
    (∀ t s : Str, '.' ∉ s → s ≠ [] →
      splitSentences (t ++ '.' :: s) = splitSentences (t ++ ['.']) ++ [s]) ∧
    (∀ t : Str, splitSentences (t ++ ['.']) = splitSpec t) ∧
    (∀ t : Str, splitSentences t = dropFinalEmpty (splitSpec t)) := by
  refine ⟨rfl, ?_, ?_, ?_, splitSentences_eq_spec⟩
  · intro t ht hdot
    have hemp : ¬ (t.isEmpty = true) := by
      simpa [List.isEmpty_iff] using ht
    unfold splitSentences
    rw [if_neg hemp, splitLoop_no_dot t [] hdot]
    simp
  · intro t s hdot hne
    have h1 : ¬ ((t ++ '.' :: s).isEmpty = true) := by
      cases t <;> simp
    have h2 : ¬ ((t ++ ['.']).isEmpty = true) := by
      cases t <;> simp
    unfold splitSentences
    rw [if_neg h1, if_neg h2]
    exact splitLoop_append_dot t [] s hdot hne
  · intro t
    rw [splitSentences_eq_spec, splitSpec_append_dot]
    unfold dropFinalEmpty
    rw [if_pos (by rw [List.getLast?_concat])]
    exact List.dropLast_concat ..

/-- C8 counterexample: the empty text yields no sentences, not the one-element
list containing the empty sentence. -/
theorem splitSentences_empty_counterexample :
    ¬ (splitSentences ([] : Str) = [([] : Str)]) := by decide

/-- C8 witness: the corrected statement applied at `"a"` and at `"a." + "b"`. -/
theorem splitSentences_trailing_witness :
    splitSentences ['a'] = [['a']] ∧
    splitSentences (['a'] ++ '.' :: ['b']) =
      splitSentences (['a'] ++ ['.']) ++ [['b']] :=
  ⟨splitSentences_trailing.2.1 ['a'] (by decide) (by decide),
   splitSentences_trailing.2.2.1 ['a'] ['b'] (by decide) (by decide)⟩

/-! ## Lemmas about relationship inference -/

/-- Membership in a conditional list with an empty alternative. -/
lemma mem_ite_nil {α : Type*} {c : Prop} [Decidable c] {a : α} {l : List α} :
    a ∈ (if c then l else []) ↔ c ∧ a ∈ l := by
  split
  · next h => simp [h]
  · next h => simp [h]

/-- Adjacent deduplication neither adds nor loses values. -/
lemma mem_dedupAdj : ∀ (l : List Triple) (a : Triple),
    a ∈ dedupAdj l ↔ a ∈ l := by
  intro l
  induction l with
  | nil => intro a; simp [dedupAdj]
  | cons x xs ih =>
    intro a
    cases xs with
    | nil => simp [dedupAdj]
    | cons y ys =>
      simp only [dedupAdj]
      split
      · next hxy =>
        rw [ih a, hxy]
        simp only [List.mem_cons]
        tauto
      · simp only [List.mem_cons, ih a, List.mem_cons]

/-- The lexicographic key is injective. -/
lemma tKey_inj {a b : Triple} (h : tKey a = tKey b) : a = b := by
  obtain ⟨a1, a2, a3⟩ := a
  obtain ⟨b1, b2, b3⟩ := b
  simp only [tKey, toLex_inj, Prod.mk.injEq] at h
  obtain ⟨h1, h2, h3⟩ := h
  simp [h1, h2, h3]

/-- The tuple comparison is antisymmetric on triples. -/
lemma tripleLe_antisymm {a b : Triple} (h1 : tripleLe a b) (h2 : tripleLe b a) :
    a = b :=
  tKey_inj (le_antisymm h1 h2)

/-- Strict tuple comparison is non-strict comparison plus inequality. -/
lemma tripleLt_iff {a b : Triple} : tripleLt a b ↔ tripleLe a b ∧ a ≠ b := by
  unfold tripleLt tripleLe
  rw [lt_iff_le_and_ne]
  constructor
  · rintro ⟨hle, hne⟩
    exact ⟨hle, fun h => hne (congrArg tKey h)⟩
  · rintro ⟨hle, hne⟩
    exact ⟨hle, fun h => hne (tKey_inj h)⟩

/-- On a sorted list, adjacent deduplication yields a strictly increasing
list. -/
lemma dedupAdj_pairwise : ∀ l : List Triple, l.Pairwise tripleLe →
    (dedupAdj l).Pairwise tripleLt := by
  intro l
  induction l with
  | nil => intro _; simp [dedupAdj]
  | cons x xs ih =>
    intro hl
    cases xs with
    | nil => simp [dedupAdj]
    | cons y ys =>
      have hx : ∀ z ∈ y :: ys, tripleLe x z := (List.pairwise_cons.mp hl).1
      have htl : (y :: ys).Pairwise tripleLe := (List.pairwise_cons.mp hl).2
      simp only [dedupAdj]
      split
      · exact ih htl
      · next hxy =>
        rw [List.pairwise_cons]
        refine ⟨?_, ih htl⟩
        intro z hz
        have hzmem : z ∈ y :: ys := (mem_dedupAdj (y :: ys) z).mp hz
        rw [tripleLt_iff]
        refine ⟨hx z hzmem, ?_⟩
        intro hEq
        subst hEq
        rcases List.mem_cons.mp hzmem with h | h
        · exact hxy h
        · have hyx : tripleLe y x := (List.pairwise_cons.mp htl).1 x h
          exact hxy (tripleLe_antisymm (hx y (List.mem_cons_self y ys)) hyx)

/-- A triple is in the final relationship set exactly when some sentence
emits it. -/
lemma mem_extract_relationships (text : Str) (E : List (Str × List Str))
    (a : Triple) :
    a ∈ extract_relationships text E ↔
    ∃ S ∈ splitSentences text, a ∈ relsForSentence S E := by
  unfold extract_relationships
  rw [mem_dedupAdj, (List.perm_insertionSort tripleLe _).mem_iff]
  exact List.mem_flatMap

/-- C5 (confirmed): the relationship set is strictly increasing in the
lexicographic (subject, predicate, object) order, and in particular
duplicate-free, for every text and every entity mapping. -/
theorem extract_relationships_sorted_nodup (text : Str)
    (entities : List (Str × List Str)) :
    (extract_relationships text entities).Pairwise tripleLt ∧
    (extract_relationships text entities).Nodup := by
  have hp := dedupAdj_pairwise _ (List.sorted_insertionSort tripleLe
    ((splitSentences text).flatMap fun s => relsForSentence s entities))
  exact ⟨hp, hp.imp fun h => (tripleLt_iff.mp h).2⟩

/-- C3 (confirmed): every emitted triple has a subject occurring in some
category list of the mapping, an object occurring in the list of a category
whose name the predicate extends after `"RELATED_TO_"`, and distinct
subject and object strings. -/
theorem extract_relationships_wellformed (text : Str)
    (E : List (Str × List Str)) (s p o : Str)
    (h : (s, p, o) ∈ extract_relationships text E) :
    (∃ c l, (c, l) ∈ E ∧ s ∈ l) ∧
    (∃ c l, (c, l) ∈ E ∧ o ∈ l ∧ p = relatedTo c) ∧ s ≠ o := by
  rw [mem_extract_relationships] at h
  obtain ⟨S, hS, hmem⟩ := h
  unfold relsForSentence at hmem
  simp only [List.mem_flatMap, mem_ite_nil, List.mem_singleton] at hmem
  obtain ⟨p1, hp1, e1, he1, hin1, p2, hp2, e2, he2, ⟨hne, hin2⟩, heq⟩ := hmem
  simp only [Prod.mk.injEq] at heq
  obtain ⟨hs', hp', ho'⟩ := heq
  subst hs'
  subst hp'
  subst ho'
  refine ⟨⟨p1.1, p1.2, ?_, he1⟩, ⟨p2.1, p2.2, ?_, he2, rfl⟩, fun h => hne h.symm⟩
  · rw [Prod.mk.eta]
    exact hp1
  · rw [Prod.mk.eta]
    exact hp2

/-- C4 (confirmed): whenever two distinct entity strings from the mapping
both occur as substrings of one sentence of the text, the corresponding
directed triple labelled with the object's category is in the output (so
each co-occurring pair contributes both directions, and substring
containment is what counts as presence). -/
theorem extract_relationships_complete (text : Str)
    (E : List (Str × List Str)) (S t1 e1 t2 e2 : Str) (l1 l2 : List Str)
    (hS : S ∈ splitSentences text) (h1 : (t1, l1) ∈ E) (he1 : e1 ∈ l1)
    (hin1 : e1 <:+: S) (h2 : (t2, l2) ∈ E) (he2 : e2 ∈ l2) (hne : e2 ≠ e1)
    (hin2 : e2 <:+: S) :
    (e1, relatedTo t2, e2) ∈ extract_relationships text E := by
  rw [mem_extract_relationships]
  refine ⟨S, hS, ?_⟩
  unfold relsForSentence
  simp only [List.mem_flatMap, mem_ite_nil, List.mem_singleton]
  exact ⟨(t1, l1), h1, e1, he1, hin1, (t2, l2), h2, e2, he2, ⟨hne, hin2⟩, rfl⟩

/-- C9 (confirmed): subjects and objects of emitted triples are contiguous
substrings of the input text containing no period, for every mapping. -/
theorem extract_relationships_no_period (text : Str)
    (E : List (Str × List Str)) (s p o : Str)
    (h : (s, p, o) ∈ extract_relationships text E) :
    (s <:+: text ∧ '.' ∉ s) ∧ (o <:+: text ∧ '.' ∉ o) := by
  rw [mem_extract_relationships] at h
  obtain ⟨S, hS, hmem⟩ := h
  obtain ⟨hdot, hinf⟩ := splitSentences_mem text S hS
  unfold relsForSentence at hmem
  simp only [List.mem_flatMap, mem_ite_nil, List.mem_singleton] at hmem
  obtain ⟨p1, hp1, e1, he1, hin1, p2, hp2, e2, he2, ⟨hne, hin2⟩, heq⟩ := hmem
  simp only [Prod.mk.injEq] at heq
  obtain ⟨hs', hp', ho'⟩ := heq
  subst hs'
  subst ho'
  exact ⟨⟨hin1.trans hinf, fun hc => hdot (hin1.subset hc)⟩,
    ⟨hin2.trans hinf, fun hc => hdot (hin2.subset hc)⟩⟩

/-- C3 witness: well-formedness applied to a triple actually emitted on the
text `"A B"` with one category `"p"` holding entities `"A"` and `"B"`. -/
theorem extract_relationships_wellformed_witness :
    (['A'], relatedTo ['p'], ['B']) ∈
      extract_relationships ['A', ' ', 'B'] [(['p'], [['A'], ['B']])] ∧
    ((∃ c l, (c, l) ∈ [(['p'], [['A'], ['B']])] ∧ ['A'] ∈ l) ∧
     (∃ c l, (c, l) ∈ [(['p'], [['A'], ['B']])] ∧ ['B'] ∈ l ∧
       relatedTo ['p'] = relatedTo c) ∧
     (['A'] : Str) ≠ ['B']) :=
  ⟨by decide, extract_relationships_wellformed ['A', ' ', 'B']
    [(['p'], [['A'], ['B']])] ['A'] (relatedTo ['p']) ['B'] (by decide)⟩

/-- C4 witness: completeness applied on the text `"A B"`, producing the
reverse-direction triple from object `"A"` to subject `"B"`. -/
theorem extract_relationships_complete_witness :
    (['B'] : Str) <:+: ['A', ' ', 'B'] ∧
    (['B'], relatedTo ['p'], ['A']) ∈
      extract_relationships ['A', ' ', 'B'] [(['p'], [['A'], ['B']])] :=
  ⟨by decide, extract_relationships_complete ['A', ' ', 'B']
    [(['p'], [['A'], ['B']])] ['A', ' ', 'B'] ['p'] ['B'] ['p'] ['A']
    [['A'], ['B']] [['A'], ['B']] (by decide) (by decide) (by decide)
    (by decide) (by decide) (by decide) (by decide) (by decide)⟩

/-- C9 witness: the no-period invariant applied to a triple emitted from the
second sentence of `"x.A B"`. -/
theorem extract_relationships_no_period_witness :
    (['A'], relatedTo ['q'], ['B']) ∈
      extract_relationships ['x', '.', 'A', ' ', 'B'] [(['q'], [['A'], ['B']])] ∧
    (((['A'] : Str) <:+: ['x', '.', 'A', ' ', 'B'] ∧ '.' ∉ (['A'] : Str)) ∧
     ((['B'] : Str) <:+: ['x', '.', 'A', ' ', 'B'] ∧ '.' ∉ (['B'] : Str))) :=
  ⟨by decide, extract_relationships_no_period ['x', '.', 'A', ' ', 'B']
    [(['q'], [['A'], ['B']])] ['A'] (relatedTo ['q']) ['B'] (by decide)⟩

/-! ## Lemmas about entity extraction -/

/-- `firstSeenAux` ignores the exact fuel once it covers the list length. -/
lemma firstSeenAux_fuel : ∀ (f1 f2 : Nat) (ms : List Str), ms.length ≤ f1 →
    ms.length ≤ f2 → firstSeenAux f1 ms = firstSeenAux f2 ms := by
  intro f1
  induction f1 with
  | zero =>
    intro f2 ms h1 _
    have hnil : ms = [] := List.length_eq_zero.mp (Nat.le_zero.mp h1)
    subst hnil
    cases f2 <;> rfl
  | succ f1 ih =>
    intro f2 ms h1 h2
    cases ms with
    | nil => cases f2 <;> rfl
    | cons m ms' =>
      cases f2 with
      | zero => simp at h2
      | succ f2' =>
        simp only [firstSeenAux, List.cons.injEq, true_and]
        apply ih
        · exact le_trans (List.length_filter_le _ _)
            (Nat.succ_le_succ_iff.mp h1)
        · exact le_trans (List.length_filter_le _ _)
            (Nat.succ_le_succ_iff.mp h2)

/-- The defining recursion of `firstSeenSpec`. -/
lemma firstSeenSpec_cons (m : Str) (ms : List Str) :
    firstSeenSpec (m :: ms) =
      m :: firstSeenSpec (ms.filter fun x => decide (x ≠ m)) := by
  unfold firstSeenSpec
  simp only [List.length_cons, firstSeenAux, List.cons.injEq, true_and]
  exact firstSeenAux_fuel ms.length (ms.filter fun x => decide (x ≠ m)).length
    (ms.filter fun x => decide (x ≠ m)) (List.length_filter_le _ _) le_rfl

/-- Everything `firstSeenSpec` keeps came from the input list. -/
lemma firstSeenSpec_subset : ∀ (n : Nat) (ms : List Str), ms.length ≤ n →
    ∀ x ∈ firstSeenSpec ms, x ∈ ms := by
  intro n
  induction n with
  | zero =>
    intro ms h x hx
    have hnil : ms = [] := List.length_eq_zero.mp (Nat.le_zero.mp h)
    subst hnil
    simp [firstSeenSpec, firstSeenAux] at hx
  | succ n ih =>
    intro ms h x hx
    cases ms with
    | nil => simp [firstSeenSpec, firstSeenAux] at hx
    | cons m ms' =>
      rw [firstSeenSpec_cons] at hx
      rcases List.mem_cons.mp hx with h' | h'
      · exact h' ▸ List.mem_cons_self m ms'
      · have hxf := ih (ms'.filter fun x => decide (x ≠ m))
          (le_trans (List.length_filter_le _ _) (Nat.succ_le_succ_iff.mp h)) x h'
        exact List.mem_cons_of_mem m (List.mem_of_mem_filter hxf)

/-- `firstSeenSpec` keeps no duplicates. -/
lemma firstSeenSpec_nodup : ∀ (n : Nat) (ms : List Str), ms.length ≤ n →
    (firstSeenSpec ms).Nodup := by
  intro n
  induction n with
  | zero =>
    intro ms h
    have hnil : ms = [] := List.length_eq_zero.mp (Nat.le_zero.mp h)
    subst hnil
    simp [firstSeenSpec, firstSeenAux]
  | succ n ih =>
    intro ms h
    cases ms with
    | nil => simp [firstSeenSpec, firstSeenAux]
    | cons m ms' =>
      rw [firstSeenSpec_cons, List.nodup_cons]
      have hlen : (ms'.filter fun x => decide (x ≠ m)).length ≤ n :=
        le_trans (List.length_filter_le _ _) (Nat.succ_le_succ_iff.mp h)
      refine ⟨?_, ih _ hlen⟩
      intro hmem
      have hmf := firstSeenSpec_subset n _ hlen m hmem
      have := List.of_mem_filter hmf
      simp at this

/-- The collection loop with `std::find` computes exactly the spec-side
first-seen deduplication, relative to what the accumulator already holds. -/
lemma collectUnique_eq : ∀ (ms acc : List Str),
    collectUnique acc ms =
      acc ++ firstSeenSpec (ms.filter fun x => decide (x ∉ acc)) := by
  intro ms
  induction ms with
  | nil => intro acc; simp [collectUnique, firstSeenSpec, firstSeenAux]
  | cons m ms' ih =>
    intro acc
    simp only [collectUnique, List.filter_cons]
    by_cases hm : m ∈ acc
    · rw [if_pos hm]
      have : (decide (m ∉ acc)) = false := by simp [hm]
      rw [this]
      exact ih acc
    · rw [if_neg hm]
      have hdm : (decide (m ∉ acc)) = true := by simp [hm]
      rw [hdm, if_pos rfl, firstSeenSpec_cons, ih (acc ++ [m])]
      have hfilter : (ms'.filter fun x => decide (x ∉ acc ++ [m])) =
          ((ms'.filter fun x => decide (x ∉ acc)).filter fun x =>
            decide (x ≠ m)) := by
        rw [List.filter_filter]
        apply List.filter_congr
        intro x _
        by_cases h1 : x ∈ acc <;> by_cases h2 : x = m <;>
          simp [h1, h2, List.mem_append]
      rw [hfilter]
      simp

/-- C6 (confirmed): for every input text, including the empty one, the
extracted mapping has exactly the six catalog categories as its keys, in
catalog order, so no category is ever omitted. -/
theorem extract_entities_all_categories (text : Str) :
    (extract_entities text).map Prod.fst =
      [String.toList "date", String.toList "email", String.toList "location",
       String.toList "organization", String.toList "person",
       String.toList "url"] := rfl

/-- C7 (confirmed): every per-category entity list is duplicate-free and is
exactly the first-seen-order deduplication of that category's left-to-right
non-overlapping matches in the text. -/
theorem extract_entities_nodup_firstSeen (text : Str) (c : Str)
    (l : List Str) (h : (c, l) ∈ extract_entities text) :
    l.Nodup ∧ ∃ re, (c, re) ∈ entity_patterns_ ∧
      l = firstSeenSpec (allMatches text re) := by
  unfold extract_entities at h
  obtain ⟨p, hp, heq⟩ := List.mem_map.mp h
  simp only [Prod.mk.injEq] at heq
  obtain ⟨hc, hl⟩ := heq
  have hcu : collectUnique [] (allMatches text p.2) =
      firstSeenSpec (allMatches text p.2) := by
    rw [collectUnique_eq]
    simp
  refine ⟨?_, p.2, ?_, ?_⟩
  · rw [← hl, hcu]
    exact firstSeenSpec_nodup (allMatches text p.2).length _ le_rfl
  · rw [← hc, Prod.mk.eta]
    exact hp
  · rw [← hl, hcu]

/-- C7 witness: the extraction result on the text `"Jo Do"` for the person
category. -/
theorem extract_entities_nodup_firstSeen_witness :
    (String.toList "person", [String.toList "Jo Do"]) ∈
      extract_entities (String.toList "Jo Do") ∧
    ([String.toList "Jo Do"].Nodup ∧
     ∃ re, (String.toList "person", re) ∈ entity_patterns_ ∧
       [String.toList "Jo Do"] =
         firstSeenSpec (allMatches (String.toList "Jo Do") re)) :=
  ⟨by decide, extract_entities_nodup_firstSeen (String.toList "Jo Do")
    (String.toList "person") [String.toList "Jo Do"] (by decide)⟩

end DistillerCore
